import Mathlib

/-!
Verification development for the Latvia cadastre download-and-merge tool
(`src/VZD_KK_download.py`).  The Python script is shallowly embedded below:
pure helpers (`get_sort_key`, the catalog filter of `get_territory_list`,
the extraction loop and the zip-packaging loop of `process_territories`,
and `merge_shapefiles`) become executable Lean functions over explicit
models of the file system and of the pyshp reader results.
-/

namespace VZD

/-! ## String helpers mirroring the Python string operations used -/

/-- Python `pat in s` (substring containment) on character lists. -/
def sublistContains (pat : List Char) : List Char → Bool
  | [] => pat.isEmpty
  | c :: cs => pat.isPrefixOf (c :: cs) || sublistContains pat cs

/-- Python `pat in s` on strings. -/
def containsSub (pat s : String) : Bool :=
  sublistContains pat.toList s.toList

/-- Python `s.lower().endswith(suffix)` for an already-lowercase `suffix`. -/
def lowerEndsWith (suffix s : String) : Bool :=
  suffix.toList.isSuffixOf (s.toList.map Char.toLower)

/-- Python `s.rsplit('.', 1)[0]`: everything before the last period, or the
whole string when there is no period. -/
def baseOf (l : List Char) : List Char :=
  if l.contains '.' then ((l.reverse.dropWhile (fun c => c != '.')).drop 1).reverse
  else l

/-- Python `s.replace(pat, repl)` (leftmost, non-overlapping), written with a
fuel argument so that it is structurally recursive.  Each step consumes at
least one input character, so fuel equal to the input length never runs out. -/
def replaceFuel (pat repl : List Char) : Nat → List Char → List Char
  | _, [] => []
  | 0, l => l
  | fuel + 1, c :: cs =>
    if pat ≠ [] ∧ pat.isPrefixOf (c :: cs) then
      repl ++ replaceFuel pat repl fuel (cs.drop (pat.length - 1))
    else
      c :: replaceFuel pat repl fuel cs

/-- Python `s.replace(pat, repl)` on strings. -/
def strReplace (pat repl s : String) : String :=
  ⟨replaceFuel pat.toList repl.toList s.toList.length s.toList⟩

/-! ## `get_sort_key` (source lines 47-55) -/

/-- Python `text.split('.')[0]`: the characters before the first period. -/
def firstPart (l : List Char) : List Char :=
  l.takeWhile (fun c => c != '.')

/-- Python `s.isdigit()` restricted to ASCII: nonempty and all decimal digits. -/
def isDigits (l : List Char) : Bool :=
  !l.isEmpty && l.all Char.isDigit

/-- Python `int(s)` for a decimal digit string. -/
def decimalValue (l : List Char) : Nat :=
  l.foldl (fun a c => a * 10 + (c.toNat - 48)) 0

/-- Embedding of `get_sort_key` (source lines 47-55): take the part before the
first period; if it is all digits its integer value is the key, otherwise the
sentinel 999999. -/
def get_sort_key (text : String) : Nat :=
  let fp := firstPart text.toList
  if isDigits fp then decimalValue fp else 999999

/-- Modelled from the claim's words (C4): the label is of the form
`"<digits>.<rest>"`, i.e. it contains a period and the part before the first
period is a nonempty run of digits. -/
def digitDotForm (s : String) : Bool :=
  s.toList.contains '.' && isDigits (firstPart s.toList)

/-! ## `get_territory_list` (source lines 20-45) -/

/-- One entry of `data['result']['resources']`: the three keys the code reads,
each possibly missing. -/
structure Resource where
  name : Option String
  format : Option String
  url : Option String
deriving DecidableEq

/-- The format/URL filter of source line 38:
`fmt in ['SHP', 'ZIP'] or url.lower().endswith('.zip')` where
`fmt = res.get('format', '').upper()` and `url = res.get('url', '')`. -/
def formatKeep (r : Resource) : Bool :=
  let fmt := (r.format.getD "").toList.map Char.toUpper
  let url := r.url.getD ""
  (fmt == "SHP".toList) || (fmt == "ZIP".toList) || lowerEndsWith ".zip" url

/-- Python dict assignment `m[k] = v`: update the value in place when the key
is present, append otherwise. -/
def dictInsert (m : List (String × String)) (k v : String) :
    List (String × String) :=
  if m.any (fun q => q.1 == k) then
    m.map (fun q => if q.1 == k then (k, v) else q)
  else m ++ [(k, v)]

/-- One iteration of the `for res in data['result']['resources']` loop
(source lines 34-41). -/
def resStep (m : List (String × String)) (r : Resource) :
    List (String × String) :=
  if formatKeep r then
    match r.name with
    | some n => if n != "" && (r.url.getD "") != "" then dictInsert m n (r.url.getD "") else m
    | none => m
  else m

/-- The whole resources loop, threading the accumulated dict. -/
def resLoop (m : List (String × String)) : List Resource → List (String × String)
  | [] => m
  | r :: rest => resLoop (resStep m r) rest

/-- Outcome of the `requests.get` / `raise_for_status` / `.json()` sequence:
either a decoded body (its `success` flag and `result.resources`), or any
raised network/HTTP/JSON exception with its message. -/
inductive FetchResult where
  | ok (success : Bool) (resources : List Resource)
  | error (msg : String)
deriving DecidableEq

/-- What `get_territory_list` produces: the message passed to `st.error`
(if any) and the returned name-to-URL mapping. -/
structure CatalogReply where
  reportedError : Option String
  mapping : List (String × String)
deriving DecidableEq

/-- Embedding of `get_territory_list` (source lines 20-45).  On a decoded
body with `success` truthy the resources loop runs; on a falsy `success`
the empty dict is returned; on any exception the error is reported via
`st.error` and the empty dict is returned. -/
def get_territory_list : FetchResult → CatalogReply
  | .ok success rs => ⟨none, if success then resLoop [] rs else []⟩
  | .error msg => ⟨some ("API Error: " ++ msg), []⟩

/-! ## Shapefile model and `merge_shapefiles` (source lines 57-105) -/

/-- One pyshp field descriptor `(name, fieldType, size, decimal)`;
`w.field(*field)` copies all four components. -/
structure ShpField where
  name : String
  ftype : String
  size : Nat
  decimal : Nat
deriving DecidableEq

/-- One record+geometry pair as yielded by `iterShapeRecords()`; the
attribute row and the geometry are opaque to the merge, so both are
abstract tokens. -/
structure ShapeRec where
  record : Nat
  shape : Nat
deriving DecidableEq

/-- What `shapefile.Reader(path)` does for a given path: raise (`absent`),
or open with a field list and a record list.  `failAfter = some k` means
iterating the shape records raises after yielding the first `k` of them;
`none` means iteration completes. -/
inductive ShpFile where
  | absent
  | present (fields : List ShpField) (recs : List ShapeRec) (failAfter : Option Nat)
deriving DecidableEq

/-- The file-system model: shapefile open results by path, plus the set of
plain files visible to `os.path.exists`. -/
structure FS where
  shp : List (String × ShpFile)
  files : List String
deriving DecidableEq

/-- Result of `shapefile.Reader(path)` against the model. -/
def FS.readShp (fs : FS) (p : String) : ShpFile :=
  (List.lookup p fs.shp).getD .absent

/-- `os.path.exists(path)` against the model. -/
def FS.hasFile (fs : FS) (p : String) : Bool :=
  fs.files.contains p

/-- The scan condition of source lines 66-73: `shapefile.Reader(path)`
succeeds and `len(temp_sf.fields) > 1`. -/
def opensValid (fs : FS) (p : String) : Bool :=
  match fs.readShp p with
  | .absent => false
  | .present fields _ _ => decide (1 < fields.length)

/-- The "find first valid file" loop of source lines 64-73: the field list of
the first path that opens with more than one field descriptor. -/
def firstValidFields (fs : FS) : List String → Option (List ShpField)
  | [] => none
  | p :: rest =>
    match fs.readShp p with
    | .absent => firstValidFields fs rest
    | .present fields _ _ =>
      if 1 < fields.length then some fields else firstValidFields fs rest

/-- The records one path adds to the writer in the merge loop of source
lines 86-95: nothing when it fails to open or its field count differs from
the canonical count `n`; all its records when iteration completes; the
first `k` of them when iteration raises after `k` records. -/
def fileContribution (fs : FS) (n : Nat) (p : String) : List ShapeRec :=
  match fs.readShp p with
  | .absent => []
  | .present fields recs failAfter =>
    if fields.length = n then
      match failAfter with
      | none => recs
      | some k => recs.take k
    else []

/-- The whole merge loop: contributions of the paths in order. -/
def mergeContrib (fs : FS) (n : Nat) : List String → List ShapeRec
  | [] => []
  | p :: rest => fileContribution fs n p ++ mergeContrib fs n rest

/-- The path opens and its record iteration does not stop early. -/
def readsFully (fs : FS) (p : String) : Bool :=
  match fs.readShp p with
  | .absent => true
  | .present _ recs failAfter =>
    match failAfter with
    | none => true
    | some k => decide (recs.length ≤ k)

/-- The path opens successfully and its field-descriptor count differs
from `n`. -/
def fieldCountDiffers (fs : FS) (p : String) (n : Nat) : Bool :=
  match fs.readShp p with
  | .absent => false
  | .present fields _ _ => decide (fields.length ≠ n)

/-- What a successful `merge_shapefiles` run materializes: the field list
written via `w.field`, the record+geometry pairs written via
`w.record`/`w.shape`, and the `.prj` copy performed (source and destination),
if any. -/
structure MergeOutput where
  fields : List ShpField
  recs : List ShapeRec
  prjCopy : Option (String × String)
deriving DecidableEq

/-- Embedding of `merge_shapefiles` (source lines 57-105).  `none` models the
`return False` paths (empty input list, or no file opening with more than one
field); `some` models the output written by `w.close()` plus the `.prj`
side copy, after which the function returns `True`. -/
def merge_shapefiles (fs : FS) (file_paths : List String) (output_path : String) :
    Option MergeOutput :=
  match file_paths with
  | [] => none
  | _ :: _ =>
    match firstValidFields fs file_paths with
    | none => none
    | some firstFields =>
      some { fields := firstFields.filter (fun f => f.name != "DeletionFlag"),
             recs := mergeContrib fs firstFields.length file_paths,
             prjCopy :=
               let src := strReplace ".shp" ".prj" (file_paths.headD "")
               if fs.hasFile src then some (src, strReplace ".shp" ".prj" output_path)
               else none }

/-- Modelled from the claim's words (C1): the record count an input
contributes per the claim — its full record count when it opens successfully
and its field-descriptor count equals the canonical count `n`, else zero. -/
def inputRecordCount (fs : FS) (n : Nat) (p : String) : Nat :=
  match fs.readShp p with
  | .absent => 0
  | .present fields recs _ => if fields.length = n then recs.length else 0

/-- Modelled from the claim's words (C1): the sum of the record counts of
the qualifying inputs. -/
def claimedMergeCount (fs : FS) (paths : List String) (n : Nat) : Nat :=
  (paths.map (inputRecordCount fs n)).sum

/-! ## Selective extraction (source lines 134-147) -/

/-- The per-entry category test of source lines 136 and 143:
include-substring present, exclude-substring absent, name ends in `.shp`
case-insensitively. -/
def categoryMatch (inc exc filename : String) : Bool :=
  containsSub inc filename && !containsSub exc filename &&
    lowerEndsWith ".shp" filename

/-- Parcel test: `"KKParcel" in f and "KKParcelPart" not in f and
f.lower().endswith(".shp")`. -/
def parcelMatch (filename : String) : Bool :=
  categoryMatch "KKParcel" "KKParcelPart" filename

/-- Building test: `"KKBuilding" in f and "KKBuildingPart" not in f and
f.lower().endswith(".shp")`. -/
def buildingMatch (filename : String) : Bool :=
  categoryMatch "KKBuilding" "KKBuildingPart" filename

/-- The sibling group of source lines 137-138 and 144-145: the archive
entries whose full name starts with the matched entry's base name,
`[f for f in z.namelist() if f.startswith(base)]`. -/
def groupOf (namelist : List String) (filename : String) : List String :=
  namelist.filter (fun rf => (baseOf filename.toList).isPrefixOf rf.toList)

/-- Modelled from the claim's words (C3): the archive entries whose base
name (path minus extension) equals the matched entry's base name. -/
def specSameBaseGroup (namelist : List String) (filename : String) : List String :=
  namelist.filter (fun rf => baseOf rf.toList == baseOf filename.toList)

/-- The extraction loop of source lines 134-147, iterating over the second
list: each matching entry extracts its sibling group. -/
def extractGroups (doP doB : Bool) (namelist : List String) : List String → List String
  | [] => []
  | f :: rest =>
    (if doP && parcelMatch f then groupOf namelist f else []) ++
      (if doB && buildingMatch f then groupOf namelist f else []) ++
      extractGroups doP doB namelist rest

/-- All archive entries extracted into the working directory for one
archive. -/
def extractedFiles (doP doB : Bool) (namelist : List String) : List String :=
  extractGroups doP doB namelist namelist

/-- The primary-path list accumulated for one category
(`parcels_to_merge.append(os.path.join(temp_dir, filename))`). -/
def primaries (doCat : Bool) (inc exc : String) (namelist : List String)
    (workDir : String) : List String :=
  if doCat then (namelist.filter (categoryMatch inc exc)).map (fun f => workDir ++ "/" ++ f)
  else []

/-! ## Packaging (source lines 171-184) -/

/-- The fixed extension list of source line 177. -/
def shpExts : List String := [".shp", ".shx", ".dbf", ".prj", ".cpg"]

/-- The inner loop of source lines 177-179: for one base name, the
`(archive name, source path)` pairs written into the zip. -/
def entriesForBase (fs : FS) (workDir base : String) : List (String × String) :=
  shpExts.filterMap (fun ext =>
    if fs.hasFile (workDir ++ "/" ++ base ++ ext) then
      some (base ++ ext, workDir ++ "/" ++ base ++ ext)
    else none)

/-- The outer loop of source lines 175-179 over the produced base names. -/
def zipAll (fs : FS) (workDir : String) : List String → List (String × String)
  | [] => []
  | b :: rest => entriesForBase fs workDir b ++ zipAll fs workDir rest

/-- The packaging step of source lines 171-184: `None` when `files_created`
is empty, otherwise the zip archive's entry list. -/
def packageResult (fs : FS) (workDir : String) (files_created : List String) :
    Option (List (String × String)) :=
  match files_created with
  | [] => none
  | _ :: _ => some (zipAll fs workDir files_created)

/-! ## Concrete fixtures used by witnesses and counterexamples -/

/-- The pyshp deletion-marker pseudo-field. -/
def fD : ShpField := ⟨"DeletionFlag", "C", 1, 0⟩

/-- A sample numeric field. -/
def fA : ShpField := ⟨"ID", "N", 10, 0⟩

/-- Another sample numeric field. -/
def fB : ShpField := ⟨"AREA", "N", 18, 5⟩

/-- Sample record+geometry pairs. -/
def r1 : ShapeRec := ⟨1, 1⟩

/-- Sample record+geometry pair. -/
def r2 : ShapeRec := ⟨2, 2⟩

/-- Sample record+geometry pair. -/
def r3 : ShapeRec := ⟨3, 3⟩

/-- Sample record+geometry pair. -/
def r4 : ShapeRec := ⟨4, 4⟩

/-- Two compatible two-field files and one three-field file. -/
def fsMergeW : FS :=
  ⟨[("a.shp", .present [fD, fA] [r1] none),
    ("b.shp", .present [fD, fB] [r2, r3] none),
    ("c.shp", .present [fD, fA, fB] [r4] none)], []⟩

/-- One file whose record iteration raises after the first record. -/
def fsMergeCex : FS :=
  ⟨[("a.shp", .present [fD, fA] [r1, r2] (some 1))], []⟩

/-- An unreadable first path plus a single-field file plus a valid file. -/
def fsSchemaW : FS :=
  ⟨[("bad.shp", .absent), ("one.shp", .present [fD] [] none),
    ("good.shp", .present [fD, fA, fB] [r1] none)], []⟩

/-- An unreadable first path whose projection sidecar exists, plus a valid
later file. -/
def fsPrjW : FS :=
  ⟨[("first.shp", .absent), ("good.shp", .present [fD, fA] [r2] none)],
   ["first.prj"]⟩

/-- A fully readable file followed by one whose iteration raises after two
records. -/
def fsPartialW : FS :=
  ⟨[("q.shp", .present [fD, fA] [r4] none),
    ("p.shp", .present [fD, fA] [r1, r2, r3] (some 2))], []⟩

/-- A working directory with two of the five candidate files present. -/
def fsPackW : FS :=
  ⟨[], ["wd/Parcels_merged.shp", "wd/Parcels_merged.dbf"]⟩

/-! ## Helper lemmas -/

theorem digit_ne_dot (c : Char) (h : c.isDigit = true) : (c != '.') = true := by
  cases hc : c == '.' with
  | false => simp [bne, hc]
  | true => rw [show c = '.' from eq_of_beq hc] at h; exact absurd h (by decide)

theorem takeWhile_all_append (p : Char → Bool) (a b : List Char)
    (h : ∀ c ∈ a, p c = true) :
    (a ++ b).takeWhile p = a ++ b.takeWhile p := by
  induction a with
  | nil => simp
  | cons c cs ih =>
    simp only [List.cons_append, List.takeWhile_cons, h c (by simp), if_true,
      List.cons.injEq, true_and]
    exact ih fun x hx => h x (by simp [hx])

/-! ## Claim C4 -/

/-- C4 counterexample: the label `"42"` is not of the form `"<digits>.<rest>"`
(it contains no period), yet its sort key is 42, not the sentinel 999999. -/
theorem sort_key_cex :
    digitDotForm "42" = false ∧ get_sort_key "42" = 42 ∧ (42 : Nat) ≠ 999999 := by
  decide

/-- C4 amended: a label whose text before the first period (the whole label
when it has no period) is nonempty and all digits gets that prefix's integer
value as its sort key — in particular an all-digits label with no period gets
its own value, not the sentinel — and every other label gets the sentinel
999999. -/
theorem sort_key_amended (d rest s : String)
    (hd : isDigits d.toList = true)
    (hs : isDigits (firstPart s.toList) = false) :
    get_sort_key (d ++ "." ++ rest) = decimalValue d.toList ∧
    get_sort_key d = decimalValue d.toList ∧
    get_sort_key s = 999999 := by
  have hall : ∀ c ∈ d.toList, (c != '.') = true := by
    have hd2 : ∀ c ∈ d.toList, c.isDigit = true := by
      have hcopy := hd
      simp only [isDigits, Bool.and_eq_true, List.all_eq_true] at hcopy
      exact hcopy.2
    intro c hc
    exact digit_ne_dot c (hd2 c hc)
  have h1 : firstPart (d ++ "." ++ rest).toList = d.toList := by
    have hsplit : (d ++ "." ++ rest).toList = d.toList ++ ('.' :: rest.toList) := by
      simp [String.toList]
    rw [firstPart, hsplit, takeWhile_all_append _ _ _ hall]
    simp [List.takeWhile_cons]
  have h2 : firstPart d.toList = d.toList := by
    have := takeWhile_all_append (fun c => c != '.') d.toList [] hall
    simpa [firstPart] using this
  refine ⟨?_, ?_, ?_⟩
  · simp only [get_sort_key]
    rw [h1, hd]
    simp
  · simp only [get_sort_key]
    rw [h2, hd]
    simp
  · simp only [get_sort_key]
    rw [hs]
    simp

/-- C4 amended witness at concrete labels. -/
theorem sort_key_amended_witness :
    get_sort_key ("7" ++ "." ++ "x") = decimalValue "7".toList ∧
    get_sort_key "7" = decimalValue "7".toList ∧
    get_sort_key "abc" = 999999 :=
  sort_key_amended "7" "x" "abc" (by decide) (by decide)

/-! ## Lemmas about the merge scan and loop -/

theorem firstValid_none_iff (fs : FS) (paths : List String) :
    firstValidFields fs paths = none ↔ ∀ p ∈ paths, opensValid fs p = false := by
  induction paths with
  | nil => simp [firstValidFields]
  | cons q rest ih =>
    cases h : fs.readShp q with
    | absent => simp [firstValidFields, h, ih, opensValid]
    | present fields recs fa =>
      by_cases hl : 1 < fields.length
      · simp [firstValidFields, h, hl, opensValid]
      · simp [firstValidFields, h, hl, opensValid, ih]

theorem firstValid_append (fs : FS) (l₁ l₂ : List String) (p : String)
    (F : List ShpField) (recs : List ShapeRec) (fa : Option Nat)
    (h1 : ∀ q ∈ l₁, opensValid fs q = false)
    (h2 : fs.readShp p = .present F recs fa)
    (h3 : 1 < F.length) :
    firstValidFields fs (l₁ ++ p :: l₂) = some F := by
  induction l₁ with
  | nil => simp [firstValidFields, h2, h3]
  | cons q l₁' ih =>
    have hq := h1 q (by simp)
    have hrest : ∀ x ∈ l₁', opensValid fs x = false := fun x hx => h1 x (by simp [hx])
    cases h : fs.readShp q with
    | absent => simpa [firstValidFields, h] using ih hrest
    | present f r a =>
      have hnl : ¬ 1 < f.length := by
        intro hc
        rw [opensValid, h] at hq
        simp [hc] at hq
      simpa [firstValidFields, h, hnl] using ih hrest

theorem firstValid_drop (fs : FS) (l₁ l₂ : List String) (b : String)
    (F : List ShpField)
    (hF : firstValidFields fs (l₁ ++ b :: l₂) = some F)
    (hb : fieldCountDiffers fs b F.length = true) :
    firstValidFields fs (l₁ ++ l₂) = some F := by
  induction l₁ with
  | nil =>
    simp only [List.nil_append] at hF ⊢
    cases h : fs.readShp b with
    | absent => simpa [firstValidFields, h] using hF
    | present f r a =>
      by_cases hl : 1 < f.length
      · have hfF : f = F := by simpa [firstValidFields, h, hl] using hF
        rw [fieldCountDiffers, h, hfF] at hb
        simp at hb
      · simpa [firstValidFields, h, hl] using hF
  | cons q l₁' ih =>
    simp only [List.cons_append] at hF ⊢
    cases h : fs.readShp q with
    | absent =>
      rw [firstValidFields, h] at hF ⊢
      exact ih hF
    | present f r a =>
      by_cases hl : 1 < f.length
      · rw [firstValidFields, h] at hF ⊢
        simpa [hl] using hF
      · rw [firstValidFields, h] at hF ⊢
        simp only [if_neg hl] at hF ⊢
        exact ih hF

theorem firstValid_ne_nil (fs : FS) (paths : List String) (F : List ShpField)
    (hF : firstValidFields fs paths = some F) : paths ≠ [] := by
  intro h
  rw [h, firstValidFields] at hF
  cases hF

theorem merge_eq (fs : FS) (paths : List String) (out : String) (F : List ShpField)
    (hne : paths ≠ []) (hF : firstValidFields fs paths = some F) :
    merge_shapefiles fs paths out =
      some { fields := F.filter (fun f => f.name != "DeletionFlag"),
             recs := mergeContrib fs F.length paths,
             prjCopy :=
               if fs.hasFile (strReplace ".shp" ".prj" (paths.headD "")) then
                 some (strReplace ".shp" ".prj" (paths.headD ""),
                       strReplace ".shp" ".prj" out)
               else none } := by
  cases paths with
  | nil => exact absurd rfl hne
  | cons p rest => simp [merge_shapefiles, hF]

theorem mergeContrib_append (fs : FS) (n : Nat) (l₁ l₂ : List String) :
    mergeContrib fs n (l₁ ++ l₂) = mergeContrib fs n l₁ ++ mergeContrib fs n l₂ := by
  induction l₁ with
  | nil => simp [mergeContrib]
  | cons p l₁' ih => simp [mergeContrib, ih]

theorem contrib_length (fs : FS) (n : Nat) (paths : List String)
    (hok : ∀ p ∈ paths, readsFully fs p = true) :
    (mergeContrib fs n paths).length = claimedMergeCount fs paths n := by
  induction paths with
  | nil => simp [mergeContrib, claimedMergeCount]
  | cons p rest ih =>
    have hp := hok p (by simp)
    have hrest : ∀ x ∈ rest, readsFully fs x = true := fun x hx => hok x (by simp [hx])
    have hhd : (fileContribution fs n p).length = inputRecordCount fs n p := by
      cases h : fs.readShp p with
      | absent => simp [fileContribution, inputRecordCount, h]
      | present f r a =>
        by_cases hl : f.length = n
        · cases a with
          | none => simp [fileContribution, inputRecordCount, h, hl]
          | some k =>
            have hk : r.length ≤ k := by simpa [readsFully, h] using hp
            simp only [fileContribution, inputRecordCount, h, if_pos hl,
              List.length_take]
            omega
        · simp [fileContribution, inputRecordCount, h, hl]
    simp [mergeContrib, claimedMergeCount, List.length_append, hhd, ih hrest]

/-! ## Claim C1 -/

/-- C1 counterexample: a single input that opens successfully with the
canonical field count but whose record iteration raises after one record
yields output record count 1, while the sum of the record counts of the
qualifying inputs is 2. -/
theorem merge_count_cex :
    (merge_shapefiles fsMergeCex ["a.shp"] "out.shp").map (fun o => o.recs.length) =
      some 1 ∧
    (firstValidFields fsMergeCex ["a.shp"]).map List.length = some 2 ∧
    claimedMergeCount fsMergeCex ["a.shp"] 2 = 2 ∧ (1 : Nat) ≠ 2 := by
  decide

/-- C1 amended: when every input that opens successfully also reads all its
records without a mid-iteration error, a successful merge's record count is
the sum of the record counts of exactly those inputs that open successfully
with a field-descriptor count equal to the canonical source's; and removing
one input that opens with a field-descriptor count different from the
canonical one leaves the output record count unchanged. -/
theorem merge_record_count (fs : FS) (out : String) :
    (∀ paths F o, firstValidFields fs paths = some F →
      merge_shapefiles fs paths out = some o →
      (∀ p ∈ paths, readsFully fs p = true) →
      o.recs.length = claimedMergeCount fs paths F.length) ∧
    (∀ l₁ b l₂ F o, firstValidFields fs (l₁ ++ b :: l₂) = some F →
      fieldCountDiffers fs b F.length = true →
      merge_shapefiles fs (l₁ ++ b :: l₂) out = some o →
      (merge_shapefiles fs (l₁ ++ l₂) out).map (fun o2 => o2.recs.length) =
        some o.recs.length) := by
  constructor
  · intro paths F o hF hm hok
    have hne := firstValid_ne_nil fs paths F hF
    have heq := merge_eq fs paths out F hne hF
    rw [hm] at heq
    have ho := Option.some.inj heq
    subst ho
    exact contrib_length fs F.length paths hok
  · intro l₁ b l₂ F o hF hb hm
    have hF' := firstValid_drop fs l₁ l₂ b F hF hb
    have hne' := firstValid_ne_nil fs (l₁ ++ l₂) F hF'
    have hne := firstValid_ne_nil fs (l₁ ++ b :: l₂) F hF
    have heq := merge_eq fs (l₁ ++ b :: l₂) out F hne hF
    rw [hm] at heq
    have ho := Option.some.inj heq
    subst ho
    have hcb : fileContribution fs F.length b = [] := by
      cases h : fs.readShp b with
      | absent => simp [fileContribution, h]
      | present f r a =>
        have : f.length ≠ F.length := by simpa [fieldCountDiffers, h] using hb
        simp [fileContribution, h, this]
    rw [merge_eq fs (l₁ ++ l₂) out F hne' hF']
    simp [mergeContrib_append, mergeContrib, hcb]

/-- C1 amended witness: three concrete files, one with a differing field
count; both conjuncts applied at them. -/
theorem merge_record_count_witness :
    (⟨[fA], [r1, r2, r3], none⟩ : MergeOutput).recs.length =
      claimedMergeCount fsMergeW ["a.shp", "b.shp", "c.shp"] ([fD, fA] : List ShpField).length ∧
    (merge_shapefiles fsMergeW (["a.shp"] ++ ["b.shp"]) "out.shp").map
        (fun o2 => o2.recs.length) =
      some (⟨[fA], [r1, r2, r3], none⟩ : MergeOutput).recs.length := by
  constructor
  · exact (merge_record_count fsMergeW "out.shp").1 ["a.shp", "b.shp", "c.shp"]
      [fD, fA] ⟨[fA], [r1, r2, r3], none⟩ (by decide) (by decide) (by decide)
  · exact (merge_record_count fsMergeW "out.shp").2 ["a.shp"] "c.shp" ["b.shp"]
      [fD, fA] ⟨[fA], [r1, r2, r3], none⟩ (by decide) (by decide) (by decide)

/-! ## Claim C2 -/

/-- C2: the merge returns failure exactly when the input list is empty or no
input path opens successfully with more than one field descriptor (in the
model a `none` result is exactly "no output written"); in every other case it
returns success. -/
theorem merge_failure_iff (fs : FS) (paths : List String) (out : String) :
    merge_shapefiles fs paths out = none ↔
      (paths = [] ∨ ∀ p ∈ paths, opensValid fs p = false) := by
  cases paths with
  | nil => simp [merge_shapefiles]
  | cons q rest =>
    cases hF : firstValidFields fs (q :: rest) with
    | none =>
      have hmn : merge_shapefiles fs (q :: rest) out = none := by
        simp [merge_shapefiles, hF]
      exact iff_of_true hmn (Or.inr ((firstValid_none_iff fs (q :: rest)).mp hF))
    | some F =>
      have hnall : ¬ ∀ p ∈ q :: rest, opensValid fs p = false := by
        intro hall
        rw [(firstValid_none_iff fs (q :: rest)).mpr hall] at hF
        cases hF
      have hms : merge_shapefiles fs (q :: rest) out ≠ none := by
        simp [merge_shapefiles, hF]
      refine iff_of_false hms ?_
      intro hor
      rcases hor with he | hall
      · exact absurd he (by simp)
      · exact hnall hall

/-! ## Claim C5 -/

/-- C5: on success the output schema is the field-descriptor sequence of the
canonical source — the first path that opens successfully with more than one
field descriptor — with every deletion-marker pseudo-field removed and the
rest kept in order. -/
theorem merge_schema_canonical (fs : FS) (out : String) (l₁ l₂ : List String)
    (p : String) (F : List ShpField) (recs : List ShapeRec) (fa : Option Nat)
    (o : MergeOutput)
    (h1 : ∀ q ∈ l₁, opensValid fs q = false)
    (h2 : fs.readShp p = .present F recs fa)
    (h3 : 1 < F.length)
    (hm : merge_shapefiles fs (l₁ ++ p :: l₂) out = some o) :
    o.fields = F.filter (fun f => f.name != "DeletionFlag") := by
  have hF := firstValid_append fs l₁ l₂ p F recs fa h1 h2 h3
  have hne : l₁ ++ p :: l₂ ≠ [] := by simp
  have heq := merge_eq fs (l₁ ++ p :: l₂) out F hne hF
  rw [hm] at heq
  have ho := Option.some.inj heq
  subst ho
  rfl

/-- C5 witness: the first two paths are not valid (unreadable, then a single
field), the third is canonical; the output schema is its fields minus the
deletion marker. -/
theorem merge_schema_canonical_witness :
    (⟨[fA, fB], [r1], none⟩ : MergeOutput).fields =
      ([fD, fA, fB] : List ShpField).filter (fun f => f.name != "DeletionFlag") :=
  merge_schema_canonical fsSchemaW "out.shp" ["bad.shp", "one.shp"] [] "good.shp"
    [fD, fA, fB] [r1] none ⟨[fA, fB], [r1], none⟩
    (by decide) (by decide) (by decide) (by decide)

/-! ## Claim C6 -/

/-- C6: on every successful merge the projection sidecar is copied from the
first input path (its name with `.shp` replaced by `.prj`), regardless of
which path became the canonical schema source, exactly when that sidecar
exists; when it does not exist nothing is copied and the merge still
succeeded. -/
theorem merge_prj_from_first (fs : FS) (out p0 : String) (rest : List String)
    (o : MergeOutput)
    (hm : merge_shapefiles fs (p0 :: rest) out = some o) :
    o.prjCopy =
      if fs.hasFile (strReplace ".shp" ".prj" p0) then
        some (strReplace ".shp" ".prj" p0, strReplace ".shp" ".prj" out)
      else none := by
  cases hF : firstValidFields fs (p0 :: rest) with
  | none => simp [merge_shapefiles, hF] at hm
  | some F =>
    have heq := merge_eq fs (p0 :: rest) out F (by simp) hF
    rw [hm] at heq
    have ho := Option.some.inj heq
    subst ho
    rfl

/-- C6 witness: the first path is unreadable as a shapefile but its `.prj`
sidecar exists; the canonical source is the second path; the sidecar is still
copied from the first path. -/
theorem merge_prj_from_first_witness :
    (⟨[fA], [r2], some ("first.prj", "out.prj")⟩ : MergeOutput).prjCopy =
      if fsPrjW.hasFile (strReplace ".shp" ".prj" "first.shp") then
        some (strReplace ".shp" ".prj" "first.shp", strReplace ".shp" ".prj" "out.shp")
      else none :=
  merge_prj_from_first fsPrjW "out.shp" "first.shp" ["good.shp"]
    ⟨[fA], [r2], some ("first.prj", "out.prj")⟩ (by decide)

/-! ## Claim C10 -/

/-- C10: a file that opens successfully with the canonical field count but
whose record iteration raises after `k` of its records contributes exactly
its first `k` records to the output — a proper prefix — while the
contributions of the files before and after it are kept. -/
theorem merge_mid_read_failure (fs : FS) (out : String) (l₁ l₂ : List String)
    (p : String) (F flds : List ShpField) (recs : List ShapeRec) (k : Nat)
    (o : MergeOutput)
    (hF : firstValidFields fs (l₁ ++ p :: l₂) = some F)
    (hp : fs.readShp p = .present flds recs (some k))
    (hlen : flds.length = F.length)
    (hk : k < recs.length)
    (hm : merge_shapefiles fs (l₁ ++ p :: l₂) out = some o) :
    o.recs = mergeContrib fs F.length l₁ ++ recs.take k ++
      mergeContrib fs F.length l₂ ∧
    (recs.take k).length = k ∧ k < recs.length := by
  have hne : l₁ ++ p :: l₂ ≠ [] := by simp
  have heq := merge_eq fs (l₁ ++ p :: l₂) out F hne hF
  rw [hm] at heq
  have ho := Option.some.inj heq
  subst ho
  refine ⟨?_, ?_, hk⟩
  · show mergeContrib fs F.length (l₁ ++ p :: l₂) = _
    rw [mergeContrib_append]
    simp [mergeContrib, fileContribution, hp, hlen]
  · simp only [List.length_take]
    omega

/-- C10 witness: after one complete file, a file with three records whose
iteration raises after two contributes exactly its first two records. -/
theorem merge_mid_read_failure_witness :
    (⟨[fA], [r4, r1, r2], none⟩ : MergeOutput).recs =
      mergeContrib fsPartialW ([fD, fA] : List ShpField).length ["q.shp"] ++
        ([r1, r2, r3] : List ShapeRec).take 2 ++
        mergeContrib fsPartialW ([fD, fA] : List ShpField).length [] ∧
    (([r1, r2, r3] : List ShapeRec).take 2).length = 2 ∧ 2 < ([r1, r2, r3] : List ShapeRec).length :=
  merge_mid_read_failure fsPartialW "out.shp" ["q.shp"] [] "p.shp"
    [fD, fA] [fD, fA] [r1, r2, r3] 2 ⟨[fA], [r4, r1, r2], none⟩
    (by decide) (by decide) (by decide) (by decide) (by decide)

/-! ## Lemmas about the extraction loop -/

theorem extractGroups_mem (doP doB : Bool) (namelist l : List String) (rf : String) :
    rf ∈ extractGroups doP doB namelist l ↔
      ∃ g ∈ l, ((doP = true ∧ parcelMatch g = true) ∨
        (doB = true ∧ buildingMatch g = true)) ∧ rf ∈ groupOf namelist g := by
  induction l with
  | nil => simp [extractGroups]
  | cons f rest ih =>
    constructor
    · intro h
      simp only [extractGroups] at h
      rcases List.mem_append.mp h with h12 | h3
      · rcases List.mem_append.mp h12 with h1 | h2
        · by_cases hc : (doP && parcelMatch f) = true
          · rw [if_pos hc] at h1
            obtain ⟨hdoP, hpm⟩ : doP = true ∧ parcelMatch f = true := by simpa using hc
            exact ⟨f, by simp, Or.inl ⟨hdoP, hpm⟩, h1⟩
          · rw [if_neg hc] at h1
            exact absurd h1 (List.not_mem_nil rf)
        · by_cases hc : (doB && buildingMatch f) = true
          · rw [if_pos hc] at h2
            obtain ⟨hdoB, hbm⟩ : doB = true ∧ buildingMatch f = true := by simpa using hc
            exact ⟨f, by simp, Or.inr ⟨hdoB, hbm⟩, h2⟩
          · rw [if_neg hc] at h2
            exact absurd h2 (List.not_mem_nil rf)
      · obtain ⟨g, hg, hmm, hrf⟩ := ih.mp h3
        exact ⟨g, by simp [hg], hmm, hrf⟩
    · rintro ⟨g, hg, hmatch, hrf⟩
      simp only [extractGroups]
      rcases List.mem_cons.mp hg with rfl | hg'
      · rcases hmatch with ⟨hdoP, hpm⟩ | ⟨hdoB, hbm⟩
        · apply List.mem_append.mpr
          left
          apply List.mem_append.mpr
          left
          rw [if_pos (by simp [hdoP, hpm])]
          exact hrf
        · apply List.mem_append.mpr
          left
          apply List.mem_append.mpr
          right
          rw [if_pos (by simp [hdoB, hbm])]
          exact hrf
      · apply List.mem_append.mpr
        right
        exact ih.mpr ⟨g, hg', hmatch, hrf⟩

/-! ## Claim C3 -/

/-- C3 counterexample: `KKParcel1.shp` matches the parcel category; the code
extracts every entry whose full name starts with the base `KKParcel1`, which
includes `KKParcel1x.dbf`, an entry whose own base name `KKParcel1x` differs —
so the extracted group is not the set of entries with equal base name. -/
theorem extract_group_cex :
    parcelMatch "KKParcel1.shp" = true ∧
    groupOf ["KKParcel1.shp", "KKParcel1x.dbf"] "KKParcel1.shp" ≠
      specSameBaseGroup ["KKParcel1.shp", "KKParcel1x.dbf"] "KKParcel1.shp" ∧
    "KKParcel1x.dbf" ∈ extractedFiles true false ["KKParcel1.shp", "KKParcel1x.dbf"] ∧
    "KKParcel1x.dbf" ∉
      specSameBaseGroup ["KKParcel1.shp", "KKParcel1x.dbf"] "KKParcel1.shp" := by
  decide

/-- C3 amended: an archive entry is extracted exactly when some entry of the
archive matches a requested category (include-substring present,
exclude-substring absent, `.shp` ending case-insensitively) and the extracted
entry's full name starts with that entry's base name (path minus extension);
and the matched geometry entry's path under the working directory is recorded
as a primary path for the category. -/
theorem extract_membership (doP doB : Bool) (nl : List String) (wd rf pp : String) :
    (rf ∈ extractedFiles doP doB nl ↔
      ∃ g ∈ nl, ((doP = true ∧ parcelMatch g = true) ∨
        (doB = true ∧ buildingMatch g = true)) ∧
        rf ∈ nl ∧ (baseOf g.toList).isPrefixOf rf.toList = true) ∧
    (pp ∈ primaries doP "KKParcel" "KKParcelPart" nl wd ↔
      doP = true ∧ ∃ g ∈ nl, parcelMatch g = true ∧ pp = wd ++ "/" ++ g) := by
  constructor
  · rw [extractedFiles, extractGroups_mem]
    apply exists_congr
    intro g
    apply and_congr_right
    intro _
    apply and_congr_right
    intro _
    simp [groupOf, List.mem_filter]
  · cases hd : doP with
    | false => simp [primaries, hd]
    | true =>
      simp only [primaries, hd, if_true, List.mem_map, List.mem_filter, true_and]
      constructor
      · rintro ⟨g, ⟨hg, hgm⟩, rfl⟩
        exact ⟨g, hg, hgm, rfl⟩
      · rintro ⟨g, hg, hgm, rfl⟩
        exact ⟨g, ⟨hg, hgm⟩, rfl⟩

/-! ## Lemmas about the catalog filter -/

/-- The per-entry condition under which the resources loop stores the entry
under key `n`: the format/URL filter holds, the entry's name is present,
nonempty and equal to `n`, and its URL is nonempty. -/
def keptWithKey (r : Resource) (n : String) : Bool :=
  formatKeep r &&
    (match r.name with
     | some nm => (nm != "" && (r.url.getD "") != "") && (nm == n)
     | none => false)

theorem keys_dictInsert (m : List (String × String)) (k v n : String) :
    n ∈ (dictInsert m k v).map Prod.fst ↔ n = k ∨ n ∈ m.map Prod.fst := by
  by_cases h : m.any (fun q => q.1 == k) = true
  · rw [dictInsert, if_pos h]
    have hk : k ∈ m.map Prod.fst := by
      obtain ⟨q, hq, hqe⟩ := List.any_eq_true.mp h
      exact List.mem_map.mpr ⟨q, hq, eq_of_beq hqe⟩
    have hmap : (m.map (fun q => if q.1 == k then (k, v) else q)).map Prod.fst =
        m.map Prod.fst := by
      rw [List.map_map]
      apply List.map_congr_left
      intro q hq
      by_cases hc : (q.1 == k) = true
      · simp [Function.comp, hc, eq_of_beq hc]
      · simp [Function.comp, hc]
    rw [hmap]
    constructor
    · exact Or.inr
    · rintro (rfl | hn)
      · exact hk
      · exact hn
  · rw [dictInsert, if_neg h, List.map_append]
    simp [or_comm]

theorem resStep_some (m : List (String × String)) (r : Resource) (nm : String)
    (hn : r.name = some nm) :
    resStep m r =
      if formatKeep r then
        (if (nm != "" && (r.url.getD "") != "") = true then
          dictInsert m nm (r.url.getD "") else m)
      else m := by
  rw [resStep, hn]

theorem resStep_none (m : List (String × String)) (r : Resource)
    (hn : r.name = none) : resStep m r = m := by
  rw [resStep, hn]
  simp

theorem keptWithKey_some (r : Resource) (nm n : String) (hn : r.name = some nm) :
    keptWithKey r n =
      (formatKeep r && ((nm != "" && (r.url.getD "") != "") && (nm == n))) := by
  rw [keptWithKey, hn]

theorem keys_resStep (m : List (String × String)) (r : Resource) (n : String) :
    n ∈ (resStep m r).map Prod.fst ↔
      keptWithKey r n = true ∨ n ∈ m.map Prod.fst := by
  by_cases hf : formatKeep r = true
  · cases hn : r.name with
    | none => simp [resStep_none m r hn, keptWithKey, hn]
    | some nm =>
      rw [resStep_some m r nm hn, if_pos hf, keptWithKey_some r nm n hn]
      by_cases hc : (nm != "" && (r.url.getD "") != "") = true
      · rw [if_pos hc, keys_dictInsert, hf, hc]
        simp only [Bool.true_and, beq_iff_eq]
        constructor
        · rintro (rfl | h)
          · exact Or.inl rfl
          · exact Or.inr h
        · rintro (rfl | h)
          · exact Or.inl rfl
          · exact Or.inr h
      · have hcf : (nm != "" && (r.url.getD "") != "") = false := by
          revert hc
          cases nm != "" && (r.url.getD "") != "" <;> simp
        rw [if_neg hc]
        simp [hcf]
  · have hff : formatKeep r = false := by
      revert hf
      cases formatKeep r <;> simp
    have hstep : resStep m r = m := by
      rw [resStep, hff]
      simp
    rw [hstep]
    simp [keptWithKey, hff]

theorem keys_resLoop (rs : List Resource) (m : List (String × String)) (n : String) :
    n ∈ (resLoop m rs).map Prod.fst ↔
      (∃ r ∈ rs, keptWithKey r n = true) ∨ n ∈ m.map Prod.fst := by
  induction rs generalizing m with
  | nil => simp [resLoop]
  | cons r rest ih =>
    rw [show resLoop m (r :: rest) = resLoop (resStep m r) rest from rfl,
      ih (resStep m r), keys_resStep]
    constructor
    · rintro (⟨r', hr', hk'⟩ | h2)
      · exact Or.inl ⟨r', by simp [hr'], hk'⟩
      · rcases h2 with hk | hmem
        · exact Or.inl ⟨r, by simp, hk⟩
        · exact Or.inr hmem
    · rintro (⟨r', hr', hk'⟩ | hmem)
      · rcases List.mem_cons.mp hr' with rfl | hr''
        · exact Or.inr (Or.inl hk')
        · exact Or.inl ⟨r', hr'', hk'⟩
      · exact Or.inr (Or.inr hmem)

/-! ## Claim C7 -/

/-- C7: a resource entry's name appears as a key of the returned mapping
exactly when some entry carries that nonempty name, a nonempty URL, and
either its format uppercases to SHP or ZIP or its URL lowercases to
something ending in `.zip`. -/
theorem territory_filter_iff (rs : List Resource) (n : String) :
    n ∈ ((get_territory_list (.ok true rs)).mapping.map Prod.fst) ↔
      ∃ r ∈ rs, r.name = some n ∧ n ≠ "" ∧ r.url.getD "" ≠ "" ∧
        ((r.format.getD "").toList.map Char.toUpper = "SHP".toList ∨
         (r.format.getD "").toList.map Char.toUpper = "ZIP".toList ∨
         lowerEndsWith ".zip" (r.url.getD "") = true) := by
  have hmap : (get_territory_list (.ok true rs)).mapping = resLoop [] rs := rfl
  rw [hmap, keys_resLoop]
  simp only [List.map_nil, List.not_mem_nil, or_false]
  apply exists_congr
  intro r
  apply and_congr_right
  intro _
  cases hn : r.name with
  | none => simp [keptWithKey, hn]
  | some nm =>
    simp only [keptWithKey, hn, formatKeep, Bool.and_eq_true, Bool.or_eq_true,
      beq_iff_eq, bne_iff_ne, ne_eq, Option.some.injEq]
    constructor
    · rintro ⟨hfk, ⟨hnm, hurl⟩, rfl⟩
      exact ⟨rfl, hnm, hurl, or_assoc.mp hfk⟩
    · rintro ⟨rfl, hnm, hurl, hfk⟩
      exact ⟨or_assoc.mpr hfk, ⟨hnm, hurl⟩, rfl⟩

/-! ## Claim C9 -/

/-- C9: on any raised network/HTTP/JSON error, the catalog fetch reports the
error message and returns the empty mapping, which is the same mapping an
error-free fetch of an empty resource list returns. -/
theorem territory_error_soft (msg : String) :
    get_territory_list (.error msg) =
      { reportedError := some ("API Error: " ++ msg), mapping := [] } ∧
    (get_territory_list (.error msg)).mapping =
      (get_territory_list (.ok true [])).mapping :=
  ⟨rfl, rfl⟩

/-! ## Lemmas about the packaging loop -/

theorem zipAll_mem (fs : FS) (workDir : String) (bases : List String)
    (nm src : String) :
    (nm, src) ∈ zipAll fs workDir bases ↔
      ∃ b ∈ bases, ∃ ext ∈ shpExts, nm = b ++ ext ∧
        src = workDir ++ "/" ++ b ++ ext ∧ fs.hasFile src = true := by
  induction bases with
  | nil => simp [zipAll]
  | cons b bs ih =>
    simp only [zipAll]
    constructor
    · intro h
      rcases List.mem_append.mp h with h1 | h2
      · simp only [entriesForBase, List.mem_filterMap,
          Option.ite_none_right_eq_some, Option.some.injEq, Prod.mk.injEq] at h1
        obtain ⟨ext, hext, hc, hnm, hsrc⟩ := h1
        refine ⟨b, by simp, ext, hext, hnm.symm, hsrc.symm, ?_⟩
        rw [hsrc] at hc
        exact hc
      · obtain ⟨b', hb', hrest⟩ := ih.mp h2
        exact ⟨b', by simp [hb'], hrest⟩
    · rintro ⟨b', hb', ext, hext, rfl, rfl, hfile⟩
      rcases List.mem_cons.mp hb' with rfl | hb''
      · apply List.mem_append.mpr
        left
        apply List.mem_filterMap.mpr
        exact ⟨ext, hext, by rw [if_pos hfile]⟩
      · apply List.mem_append.mpr
        right
        exact ih.mpr ⟨b', hb'', ext, hext, rfl, rfl, hfile⟩

/-! ## Claim C8 -/

/-- C8: the packager returns nothing exactly when the produced base-name list
is empty; otherwise the archive contains, flat under `baseName.ext`, exactly
the files `workDir/baseName.ext` that exist for the five fixed extensions. -/
theorem package_archive_entries (fs : FS) (workDir : String) (bases : List String)
    (nm src : String) :
    (packageResult fs workDir bases = none ↔ bases = []) ∧
    (∀ es, packageResult fs workDir bases = some es →
      ((nm, src) ∈ es ↔ ∃ b ∈ bases, ∃ ext ∈ shpExts, nm = b ++ ext ∧
        src = workDir ++ "/" ++ b ++ ext ∧ fs.hasFile src = true)) := by
  constructor
  · cases bases <;> simp [packageResult]
  · intro es hes
    cases bases with
    | nil => simp [packageResult] at hes
    | cons b bs =>
      have h : zipAll fs workDir (b :: bs) = es := Option.some.inj hes
      rw [← h]
      exact zipAll_mem fs workDir (b :: bs) nm src

/-- C8 witness: with only the `.shp` and `.dbf` files present for one base
name, the geometry file is an entry of the produced archive. -/
theorem package_archive_entries_witness :
    ("Parcels_merged.shp", "wd/Parcels_merged.shp") ∈
      zipAll fsPackW "wd" ["Parcels_merged"] :=
  ((package_archive_entries fsPackW "wd" ["Parcels_merged"] "Parcels_merged.shp"
      "wd/Parcels_merged.shp").2 (zipAll fsPackW "wd" ["Parcels_merged"]) rfl).mpr
    (by decide)

end VZD
